import Mathlib

/-!
# Order-intent normalization: a shallow embedding

This file embeds the order-intent validation and largest-remainder rounding
routines of `python_sdk/utils.py` (`validate_order`, `round_with_fixed_sum`)
into Lean, and proves or refutes the specified properties about them.

Modelling conventions:
* Python `float` weights are idealized as exact rationals (`ℚ`).
* Python dicts are association lists (`List (String × ℚ)`), which preserve
  insertion order like Python dicts; `d[k] = v` for a fresh key appends.
* The external whitelist/decimals authorities (`is_whitelisted`,
  `get_whitelisted_vaults`, `get_curator_intent_decimals` in
  `chain_interactions.py`, thin RPC wrappers) are modelled as parameters:
  an ordered whitelist `wl : List String` (membership = `is_whitelisted`)
  and a precision `decimals : ℕ`.
* The process-wide seeded generator (`random.seed(42)`; `random.randint`)
  is modelled as a pure stream of naturals threaded through the call.
* `raise ValueError` at the three validation sites is modelled as an
  `Except` error carrying which of the three checks failed (the spec's
  taxonomy `InvalidTokenError` / `InvalidWeightError` / `InvalidSumError`).
* The caller's dict is passed by reference in Python, so `validate_order`
  is embedded as returning, next to its result, the final contents of the
  caller's mapping (the fuzz loop mutates it in place; every other step
  rebinds the local name to a fresh dict).
* `np.argsort(-fractional_parts)` uses numpy's default `kind='quicksort'`.
  The embedding fixes the stable refinement of that sort (descending by
  key, ties kept in original index order, as an insertion sort); numpy
  does not document a tie order for quicksort.
-/

/-- Python slice `l[:r]` for a possibly negative bound `r`, as used by
`indices[:remainder]`: a negative `r` counts from the end, clamped at 0. -/
def pyTake {α : Type} (r : ℤ) (l : List α) : List α :=
  if r < 0 then l.take ((l.length : ℤ) + r).toNat else l.take r.toNat

/-- `np.isclose a b (rtol) (atol)` on finite inputs:
`|a - b| ≤ atol + rtol * |b|`.  The source calls
`np.isclose(sum, 1, atol=1e-10)`, leaving the default `rtol=1e-5`. -/
def isclose (a b atol rtol : ℚ) : Bool := |a - b| ≤ atol + rtol * |b|

/-- The three `raise ValueError` sites of `validate_order`, under the
names the specification's error taxonomy gives them. -/
inductive OrderError where
  | invalidToken (token : String)
  | invalidWeight
  | invalidSum
deriving DecidableEq, Repr

/-- `np.argsort (-keys)`: indices `0..n-1` ordered by descending key.
Embedded as a stable sort (ties by original index); see the header note. -/
def argsortNegDesc (keys : List ℚ) : List ℕ :=
  List.insertionSort (fun i j => keys.getD j 0 ≤ keys.getD i 0)
    (List.range keys.length)

/-- `round_with_fixed_sum(values, target_sum)` from `utils.py`:
floor every value, then add 1 to the entries whose indices occupy the
first `remainder` slots of the descending-fractional-part argsort
(numpy fancy-indexed increment on distinct indices). -/
def round_with_fixed_sum (values : List ℚ) (target_sum : ℤ) : List ℤ :=
  let floored := values.map (fun v => ⌊v⌋)
  let remainder := target_sum - floored.sum
  let fractional_parts := values.map (fun v => v - (⌊v⌋ : ℚ))
  let indices := argsortNegDesc fractional_parts
  let chosen := pyTake remainder indices
  (List.range values.length).map
    (fun i => floored.getD i 0 + if i ∈ chosen then 1 else 0)

/-- Modelled from the spec: Python stdlib `random.randint(1, 10)` on the
process-wide generator seeded at startup (`random.seed(42)` in
`utils.py`).  The generator is a pure stream of naturals; a draw maps the
head into `[1, 10]` and advances the stream. -/
def randint110 (g : ℕ → ℕ) : ℕ × (ℕ → ℕ) := (g 0 % 10 + 1, fun n => g (n + 1))

/-- The fuzz loop of `validate_order`: for each whitelisted vault absent
from the intent, append a dust entry `randint(1,10) / 10^decimals`,
checking absence against the current (growing) dict. -/
def addDust (decimals : ℕ) (intent : List (String × ℚ)) (g : ℕ → ℕ) :
    List String → List (String × ℚ) × (ℕ → ℕ)
  | [] => (intent, g)
  | vault :: rest =>
      if (intent.map Prod.fst).contains vault then
        addDust decimals intent g rest
      else
        let p := randint110 g
        addDust decimals (intent ++ [(vault, (p.1 : ℚ) / 10 ^ decimals)]) p.2 rest

/-- `validate_order(order_intent, fuzz)` from `utils.py`, with the
external authorities as parameters `wl` (ordered whitelist) and
`decimals`, and the seeded generator as `g`.  Returns the result
(normalized intent or the raised error) together with the final contents
of the caller's `order_intent` mapping. -/
def validate_order (wl : List String) (decimals : ℕ) (g : ℕ → ℕ)
    (order_intent : List (String × ℚ)) (fuzz : Bool) :
    Except OrderError (List (String × ℤ)) × List (String × ℚ) :=
  match order_intent.find? (fun p => !(wl.contains p.1)) with
  | some p => (.error (.invalidToken p.1), order_intent)
  | none =>
    if order_intent.any (fun p => decide (p.2 ≤ 0)) then
      (.error .invalidWeight, order_intent)
    else if !(isclose ((order_intent.map Prod.snd).sum) 1 (1 / 10 ^ 10) (1 / 10 ^ 5)) then
      (.error .invalidSum, order_intent)
    else
      let extended := if fuzz then (addDust decimals order_intent g wl).1
                      else order_intent
      let working := if fuzz then
          extended.map (fun q => (q.1, q.2 / (extended.map Prod.snd).sum))
        else extended
      let scaled := working.map (fun q => (q.1, q.2 * 10 ^ decimals))
      let rounded := round_with_fixed_sum (scaled.map Prod.snd) (10 ^ decimals)
      (.ok (List.zip (scaled.map Prod.fst) rounded), extended)

/-- Total rounding error of an integer vector `x` against real values
`v`: the sum of entrywise absolute differences. -/
def errSum (x : List ℤ) (v : List ℚ) : ℚ :=
  (List.zipWith (fun (a : ℤ) (b : ℚ) => |(a : ℚ) - b|) x v).sum

/-- The chosen index list of `round_with_fixed_sum`:
`indices[:remainder]`. -/
def chosenIdx (v : List ℚ) (t : ℤ) : List ℕ :=
  pyTake (t - (v.map (fun x => ⌊x⌋)).sum)
    (argsortNegDesc (v.map (fun x => x - (⌊x⌋ : ℚ))))

/-! ## Support lemmas -/

lemma map_range_getD {α : Type} (l : List α) (d : α) :
    (List.range l.length).map (fun i => l.getD i d) = l := by
  induction l with
  | nil => rfl
  | cons a t ih =>
    rw [List.length_cons, List.range_succ_eq_map, List.map_cons, List.map_map]
    have hc : ((fun i => (a :: t).getD i d) ∘ Nat.succ) = fun i => t.getD i d := by
      funext i
      simp [List.getD_cons_succ]
    rw [List.getD_cons_zero, hc, ih]

lemma list_map_range_sum {M : Type} [AddCommMonoid M] (n : ℕ) (f : ℕ → M) :
    ((List.range n).map f).sum = ∑ i in Finset.range n, f i := rfl

lemma sum_range_getD {M : Type} [AddCommMonoid M] (l : List M) (d : M) :
    (∑ i in Finset.range l.length, l.getD i d) = l.sum := by
  rw [← list_map_range_sum, map_range_getD]

lemma sum_indicator_card (n : ℕ) (c : List ℕ) (hnd : c.Nodup)
    (hlt : ∀ i ∈ c, i < n) :
    (∑ i in Finset.range n, if i ∈ c then (1 : ℤ) else 0) = c.length := by
  rw [Finset.sum_boole]
  have hfilter : (Finset.range n).filter (· ∈ c) = c.toFinset := by
    ext j
    simp only [Finset.mem_filter, Finset.mem_range, List.mem_toFinset]
    exact ⟨fun h => h.2, fun h => ⟨hlt j h, h⟩⟩
  rw [hfilter, List.toFinset_card_of_nodup hnd]

lemma argsortNegDesc_perm (keys : List ℚ) :
    List.Perm (argsortNegDesc keys) (List.range keys.length) :=
  List.perm_insertionSort _ _

lemma argsortNegDesc_length (keys : List ℚ) :
    (argsortNegDesc keys).length = keys.length :=
  ((argsortNegDesc_perm keys).length_eq).trans (List.length_range _)

lemma argsortNegDesc_nodup (keys : List ℚ) : (argsortNegDesc keys).Nodup :=
  ((argsortNegDesc_perm keys).nodup_iff).mpr (List.nodup_range _)

lemma argsortNegDesc_mem (keys : List ℚ) (i : ℕ) :
    i ∈ argsortNegDesc keys ↔ i < keys.length := by
  rw [(argsortNegDesc_perm keys).mem_iff, List.mem_range]

lemma pyTake_of_nonneg {α : Type} (r : ℤ) (l : List α) (h : 0 ≤ r) :
    pyTake r l = l.take r.toNat := by
  rw [pyTake, if_neg (not_lt.mpr h)]

lemma pyTake_sublist {α : Type} (r : ℤ) (l : List α) :
    (pyTake r l).Sublist l := by
  rw [pyTake]
  split <;> exact List.take_sublist _ _

lemma pyTake_length {α : Type} (r : ℤ) (l : List α) (h0 : 0 ≤ r)
    (h1 : r ≤ (l.length : ℤ)) : ((pyTake r l).length : ℤ) = r := by
  rw [pyTake_of_nonneg r l h0, List.length_take]
  rw [min_eq_left (by omega : r.toNat ≤ l.length)]
  omega

lemma round_with_fixed_sum_eq (v : List ℚ) (t : ℤ) :
    round_with_fixed_sum v t =
      (List.range v.length).map (fun i =>
        (v.map (fun x => ⌊x⌋)).getD i 0 +
          if i ∈ chosenIdx v t then 1 else 0) := rfl

lemma chosenIdx_nodup (v : List ℚ) (t : ℤ) : (chosenIdx v t).Nodup :=
  (pyTake_sublist _ _).nodup (argsortNegDesc_nodup _)

lemma chosenIdx_lt (v : List ℚ) (t : ℤ) :
    ∀ i ∈ chosenIdx v t, i < v.length := by
  intro i hi
  have hmem := (pyTake_sublist _ _).mem hi
  rw [argsortNegDesc_mem] at hmem
  simpa using hmem

lemma round_with_fixed_sum_length (v : List ℚ) (t : ℤ) :
    (round_with_fixed_sum v t).length = v.length := by
  rw [round_with_fixed_sum_eq, List.length_map, List.length_range]

/-- Core sum identity: when the remainder lies between `0` and the number
of entries, the rounded list sums exactly to the target. -/
lemma round_with_fixed_sum_sum (v : List ℚ) (t : ℤ)
    (h0 : 0 ≤ t - (v.map (fun x => ⌊x⌋)).sum)
    (hn : t - (v.map (fun x => ⌊x⌋)).sum ≤ (v.length : ℤ)) :
    (round_with_fixed_sum v t).sum = t := by
  have hlen : (argsortNegDesc (v.map (fun x => x - (⌊x⌋ : ℚ)))).length
      = v.length := by
    rw [argsortNegDesc_length, List.length_map]
  have hclen : ((chosenIdx v t).length : ℤ)
      = t - (v.map (fun x => ⌊x⌋)).sum := by
    rw [chosenIdx, pyTake_length _ _ h0 (by rw [hlen]; exact hn)]
  rw [round_with_fixed_sum_eq, list_map_range_sum, Finset.sum_add_distrib]
  have hfl : (v.map (fun x => ⌊x⌋)).length = v.length := List.length_map _ _
  rw [← hfl, sum_range_getD, hfl,
    sum_indicator_card v.length _ (chosenIdx_nodup v t) (chosenIdx_lt v t)]
  omega

lemma validate_order_false_eq (wl : List String) (d : ℕ) (g : ℕ → ℕ)
    (intent : List (String × ℚ))
    (h1 : intent.find? (fun p => !(wl.contains p.1)) = none)
    (h2 : intent.any (fun p => decide (p.2 ≤ 0)) = false)
    (h3 : isclose ((intent.map Prod.snd).sum) 1 (1 / 10 ^ 10) (1 / 10 ^ 5) = true) :
    validate_order wl d g intent false =
      (let scaled := intent.map (fun q => (q.1, q.2 * 10 ^ d))
       (Except.ok (List.zip (scaled.map Prod.fst)
          (round_with_fixed_sum (scaled.map Prod.snd) (10 ^ d))), intent)) := by
  unfold validate_order
  rw [h1, h2, h3]
  rfl

lemma validate_order_true_eq (wl : List String) (d : ℕ) (g : ℕ → ℕ)
    (intent : List (String × ℚ))
    (h1 : intent.find? (fun p => !(wl.contains p.1)) = none)
    (h2 : intent.any (fun p => decide (p.2 ≤ 0)) = false)
    (h3 : isclose ((intent.map Prod.snd).sum) 1 (1 / 10 ^ 10) (1 / 10 ^ 5) = true) :
    validate_order wl d g intent true =
      (let extended := (addDust d intent g wl).1
       let working := extended.map
         (fun q => (q.1, q.2 / (extended.map Prod.snd).sum))
       let scaled := working.map (fun q => (q.1, q.2 * 10 ^ d))
       (Except.ok (List.zip (scaled.map Prod.fst)
          (round_with_fixed_sum (scaled.map Prod.snd) (10 ^ d))), extended)) := by
  unfold validate_order
  rw [h1, h2, h3]
  rfl

lemma validate_order_ok_inv {wl : List String} {d : ℕ} {g : ℕ → ℕ}
    {intent : List (String × ℚ)} {fuzz : Bool} {out : List (String × ℤ)}
    (h : (validate_order wl d g intent fuzz).1 = Except.ok out) :
    intent.find? (fun p => !(wl.contains p.1)) = none ∧
    intent.any (fun p => decide (p.2 ≤ 0)) = false ∧
    isclose ((intent.map Prod.snd).sum) 1 (1 / 10 ^ 10) (1 / 10 ^ 5) = true := by
  unfold validate_order at h
  cases hf : intent.find? (fun p => !(wl.contains p.1)) with
  | some p => rw [hf] at h; simp at h
  | none =>
    rw [hf] at h
    cases h2 : intent.any (fun p => decide (p.2 ≤ 0)) with
    | true => rw [h2] at h; simp at h
    | false =>
      rw [h2] at h
      cases h3 : isclose ((intent.map Prod.snd).sum) 1 (1 / 10 ^ 10) (1 / 10 ^ 5) with
      | false => rw [h3] at h; simp at h
      | true => exact ⟨rfl, rfl, rfl⟩

lemma all_pos_of_any_eq_false {intent : List (String × ℚ)}
    (h2 : intent.any (fun p => decide (p.2 ≤ 0)) = false) :
    ∀ p ∈ intent, 0 < p.2 := by
  intro p hp
  by_contra hle
  have hne : intent.any (fun p => decide (p.2 ≤ 0)) = true :=
    List.any_eq_true.mpr ⟨p, hp, by simpa using not_lt.mp hle⟩
  rw [hne] at h2
  exact Bool.noConfusion h2

lemma ne_nil_of_isclose {intent : List (String × ℚ)}
    (h3 : isclose ((intent.map Prod.snd).sum) 1 (1 / 10 ^ 10) (1 / 10 ^ 5) = true) :
    intent ≠ [] := by
  intro hnil
  subst hnil
  simp only [List.map_nil, List.sum_nil, isclose, decide_eq_true_eq] at h3
  norm_num at h3

lemma list_sum_map_add {α : Type} (l : List α) (f g : α → ℚ) :
    (l.map (fun x => f x + g x)).sum = (l.map f).sum + (l.map g).sum := by
  induction l with
  | nil => simp
  | cons a t ih => simp only [List.map_cons, List.sum_cons, ih]; ring

lemma list_sum_map_mul_right {α : Type} (l : List α) (f : α → ℚ) (c : ℚ) :
    (l.map (fun x => f x * c)).sum = (l.map f).sum * c := by
  induction l with
  | nil => simp
  | cons a t ih => simp only [List.map_cons, List.sum_cons, ih]; ring

lemma list_sum_map_div {α : Type} (l : List α) (f : α → ℚ) (c : ℚ) :
    (l.map (fun x => f x / c)).sum = (l.map f).sum / c := by
  simp only [div_eq_mul_inv]
  exact list_sum_map_mul_right l f c⁻¹

/-- When the values sum exactly to the (cast) target, the remainder of
`round_with_fixed_sum` lies between `0` and the number of entries. -/
lemma floor_sum_bounds (v : List ℚ) (T : ℤ) (hsum : v.sum = (T : ℚ)) :
    0 ≤ T - (v.map (fun x => ⌊x⌋)).sum ∧
      T - (v.map (fun x => ⌊x⌋)).sum ≤ (v.length : ℤ) := by
  have hcast : (((v.map (fun x => ⌊x⌋)).sum : ℤ) : ℚ)
      = (v.map (fun x => (⌊x⌋ : ℚ))).sum := by
    rw [Int.cast_list_sum, List.map_map]
    rfl
  have hle : (v.map (fun x => (⌊x⌋ : ℚ))).sum ≤ v.sum := by
    calc (v.map (fun x => (⌊x⌋ : ℚ))).sum ≤ (v.map (fun x => x)).sum :=
          List.sum_le_sum (fun x _ => Int.floor_le x)
      _ = v.sum := by rw [List.map_id']
  have hge : v.sum ≤ (v.map (fun x => (⌊x⌋ : ℚ))).sum + v.length := by
    have h1 : v.sum ≤ (v.map (fun x => (⌊x⌋ : ℚ) + 1)).sum := by
      calc v.sum = (v.map (fun x => x)).sum := by rw [List.map_id']
        _ ≤ (v.map (fun x => (⌊x⌋ : ℚ) + 1)).sum :=
          List.sum_le_sum (fun x _ => le_of_lt (Int.lt_floor_add_one x))
    have h2 : (v.map (fun x => (⌊x⌋ : ℚ) + 1)).sum
        = (v.map (fun x => (⌊x⌋ : ℚ))).sum + v.length := by
      rw [list_sum_map_add v (fun x => (⌊x⌋ : ℚ)) (fun _ => 1)]
      congr 1
      rw [List.map_const', List.sum_replicate, nsmul_eq_mul, mul_one]
    rw [h2] at h1
    exact h1
  constructor
  · have hq : ((v.map (fun x => ⌊x⌋)).sum : ℚ) ≤ (T : ℚ) := by
      rw [hcast, ← hsum]; exact hle
    have hz : (v.map (fun x => ⌊x⌋)).sum ≤ T := by exact_mod_cast hq
    omega
  · have hq : (T : ℚ) ≤ ((v.map (fun x => ⌊x⌋)).sum : ℚ) + ((v.length : ℤ) : ℚ) := by
      rw [hcast, ← hsum]
      push_cast
      push_cast at hge
      linarith
    have hz : T ≤ (v.map (fun x => ⌊x⌋)).sum + (v.length : ℤ) := by exact_mod_cast hq
    omega

lemma addDust_pos (d : ℕ) (wl : List String) :
    ∀ (intent : List (String × ℚ)) (g : ℕ → ℕ),
      (∀ p ∈ intent, 0 < p.2) → ∀ p ∈ (addDust d intent g wl).1, 0 < p.2 := by
  induction wl with
  | nil => intro intent g h p hp; exact h p hp
  | cons vault rest ih =>
    intro intent g h p hp
    simp only [addDust] at hp
    by_cases hc : (intent.map Prod.fst).contains vault
    · rw [if_pos hc] at hp
      exact ih intent g h p hp
    · rw [if_neg hc] at hp
      refine ih _ _ ?_ p hp
      intro q hq
      rcases List.mem_append.mp hq with hq | hq
      · exact h q hq
      · rcases List.mem_singleton.mp hq with rfl
        have hpos1 : (0 : ℚ) < ((randint110 g).1 : ℚ) := by
          have hn : 0 < (randint110 g).1 := Nat.succ_pos _
          exact_mod_cast hn
        exact div_pos hpos1 (by positivity)

lemma addDust_ne_nil (d : ℕ) (wl : List String) :
    ∀ (intent : List (String × ℚ)) (g : ℕ → ℕ),
      intent ≠ [] → (addDust d intent g wl).1 ≠ [] := by
  induction wl with
  | nil => intro intent g h; exact h
  | cons vault rest ih =>
    intro intent g h
    simp only [addDust]
    by_cases hc : (intent.map Prod.fst).contains vault
    · rw [if_pos hc]; exact ih intent g h
    · rw [if_neg hc]
      exact ih _ _ (by simp)

lemma normalized_round_sum (ws : List (String × ℚ)) (d : ℕ)
    (out : List (String × ℤ))
    (hwsum : (ws.map Prod.snd).sum = 1)
    (hout : out = List.zip
        ((ws.map (fun q => (q.1, q.2 * 10 ^ d))).map Prod.fst)
        (round_with_fixed_sum
          ((ws.map (fun q => (q.1, q.2 * 10 ^ d))).map Prod.snd) (10 ^ d))) :
    (out.map Prod.snd).sum = 10 ^ d := by
  have hcomp : ((ws.map (fun q => (q.1, q.2 * 10 ^ d))).map Prod.snd)
      = ws.map (fun q => Prod.snd q * 10 ^ d) := by
    rw [List.map_map]; rfl
  have hvsum : ((ws.map (fun q => (q.1, q.2 * 10 ^ d))).map Prod.snd).sum
      = ((10 : ℚ)) ^ d := by
    rw [hcomp, list_sum_map_mul_right, hwsum, one_mul]
  obtain ⟨hb0, hb1⟩ := floor_sum_bounds
    ((ws.map (fun q => (q.1, q.2 * 10 ^ d))).map Prod.snd) (10 ^ d)
    (by rw [hvsum]; push_cast; ring)
  have hlen : (round_with_fixed_sum
      ((ws.map (fun q => (q.1, q.2 * 10 ^ d))).map Prod.snd) (10 ^ d)).length
      ≤ ((ws.map (fun q => (q.1, q.2 * 10 ^ d))).map Prod.fst).length := by
    simp only [round_with_fixed_sum_length, List.length_map]
    exact le_rfl
  have hsnd : out.map Prod.snd = round_with_fixed_sum
      ((ws.map (fun q => (q.1, q.2 * 10 ^ d))).map Prod.snd) (10 ^ d) := by
    rw [hout]
    exact List.map_snd_zip _ _ hlen
  rw [hsnd]
  exact round_with_fixed_sum_sum _ _ hb0 hb1

/-- C1 (amended): for every intent that passes validation, the amounts
returned by `validate_order` sum exactly to `10 ^ decimals` provided the
weights the rounding step actually receives sum exactly to `1`: with
fuzzing this holds automatically (exact renormalization), without it the
input weights must sum to exactly `1` rather than merely within the
accepted tolerance. -/
theorem validate_order_sum_eq_pow (wl : List String) (d : ℕ) (g : ℕ → ℕ)
    (intent : List (String × ℚ)) (fuzz : Bool) (out : List (String × ℤ))
    (hok : (validate_order wl d g intent fuzz).1 = Except.ok out)
    (hexact : fuzz = true ∨ (intent.map Prod.snd).sum = 1) :
    (out.map Prod.snd).sum = 10 ^ d := by
  obtain ⟨h1, h2, h3⟩ := validate_order_ok_inv hok
  cases fuzz with
  | false =>
    have hsum : (intent.map Prod.snd).sum = 1 :=
      hexact.resolve_left (by simp)
    rw [validate_order_false_eq wl d g intent h1 h2 h3] at hok
    simp only at hok
    have hout := (Except.ok.injEq _ _).mp hok
    exact normalized_round_sum intent d out hsum hout.symm
  | true =>
    rw [validate_order_true_eq wl d g intent h1 h2 h3] at hok
    simp only at hok
    have hout := (Except.ok.injEq _ _).mp hok
    have hpos : ∀ p ∈ (addDust d intent g wl).1, 0 < p.2 :=
      addDust_pos d wl intent g (all_pos_of_any_eq_false h2)
    have hne : (addDust d intent g wl).1 ≠ [] :=
      addDust_ne_nil d wl intent g (ne_nil_of_isclose h3)
    have hSpos : 0 < (((addDust d intent g wl).1).map Prod.snd).sum := by
      apply List.sum_pos
      · intro x hx
        rcases List.mem_map.mp hx with ⟨p, hp, rfl⟩
        exact hpos p hp
      · intro hmapnil
        exact hne (List.map_eq_nil_iff.mp hmapnil)
    have hwsum : ((((addDust d intent g wl).1).map
        (fun q => (q.1, q.2 / (((addDust d intent g wl).1).map Prod.snd).sum))).map
          Prod.snd).sum = 1 := by
      rw [List.map_map]
      have hcomp : (Prod.snd ∘ fun q : String × ℚ =>
          (q.1, q.2 / (((addDust d intent g wl).1).map Prod.snd).sum))
          = fun q : String × ℚ =>
            Prod.snd q / (((addDust d intent g wl).1).map Prod.snd).sum := rfl
      rw [hcomp, list_sum_map_div, div_self (ne_of_gt hSpos)]
    exact normalized_round_sum _ d out hwsum hout.symm

lemma getD_map_range {α : Type} (n : ℕ) (f : ℕ → α) (i : ℕ) (hi : i < n)
    (d : α) : ((List.range n).map f).getD i d = f i := by
  rw [List.getD_eq_getElem?_getD, List.getElem?_map, List.getElem?_range hi]
  rfl

lemma getD_map_of_lt {α β : Type} (f : α → β) (l : List α) (i : ℕ)
    (hi : i < l.length) (d : α) (d' : β) :
    (l.map f).getD i d' = f (l.getD i d) := by
  rw [List.getD_eq_getElem?_getD, List.getD_eq_getElem?_getD, List.getElem?_map,
    List.getElem?_eq_getElem hi]
  rfl

lemma round_with_fixed_sum_getD (v : List ℚ) (t : ℤ) (i : ℕ)
    (hi : i < v.length) :
    (round_with_fixed_sum v t).getD i 0
      = ⌊v.getD i 0⌋ + (if i ∈ chosenIdx v t then 1 else 0) := by
  rw [round_with_fixed_sum_eq, getD_map_range v.length _ i hi]
  congr 1
  exact getD_map_of_lt (fun x => ⌊x⌋) v i hi 0 0

/-- C2 (amended): for every intent accepted by `validate_order` (without
fuzz), each returned amount equals the floor of the exact scaled weight
or that floor plus one, hence differs from the exact scaled weight by at
most `1` (the strict bound `< 1` of the original claim fails; see the
counterexample). -/
theorem validate_order_entry_floor (wl : List String) (d : ℕ) (g : ℕ → ℕ)
    (intent : List (String × ℚ)) (out : List (String × ℤ)) (i : ℕ)
    (hok : (validate_order wl d g intent false).1 = Except.ok out)
    (hi : i < intent.length) :
    ((out.map Prod.snd).getD i 0
        = ⌊(intent.map Prod.snd).getD i 0 * 10 ^ d⌋ ∨
      (out.map Prod.snd).getD i 0
        = ⌊(intent.map Prod.snd).getD i 0 * 10 ^ d⌋ + 1) ∧
    |(((out.map Prod.snd).getD i 0 : ℤ) : ℚ)
        - (intent.map Prod.snd).getD i 0 * 10 ^ d| ≤ 1 := by
  obtain ⟨h1, h2, h3⟩ := validate_order_ok_inv hok
  rw [validate_order_false_eq wl d g intent h1 h2 h3] at hok
  simp only at hok
  have hout := ((Except.ok.injEq _ _).mp hok).symm
  have hlen : (round_with_fixed_sum
      ((intent.map (fun q => (q.1, q.2 * 10 ^ d))).map Prod.snd) (10 ^ d)).length
      ≤ ((intent.map (fun q => (q.1, q.2 * 10 ^ d))).map Prod.fst).length := by
    simp only [round_with_fixed_sum_length, List.length_map]
    exact le_rfl
  have hsnd : out.map Prod.snd = round_with_fixed_sum
      ((intent.map (fun q => (q.1, q.2 * 10 ^ d))).map Prod.snd) (10 ^ d) := by
    rw [hout]
    exact List.map_snd_zip _ _ hlen
  have hsvlen : ((intent.map (fun q => (q.1, q.2 * 10 ^ d))).map Prod.snd).length
      = intent.length := by
    simp only [List.length_map]
  have hsv_getD : ((intent.map (fun q => (q.1, q.2 * 10 ^ d))).map Prod.snd).getD i 0
      = (intent.map Prod.snd).getD i 0 * 10 ^ d := by
    have hm : (intent.map (fun q => (q.1, q.2 * 10 ^ d))).map Prod.snd
        = intent.map (fun q => Prod.snd q * 10 ^ d) := by
      rw [List.map_map]; rfl
    rw [hm, getD_map_of_lt (fun q => Prod.snd q * 10 ^ d) intent i hi ("", 0) 0,
      getD_map_of_lt Prod.snd intent i hi ("", 0) 0]
  have hentry := round_with_fixed_sum_getD
    ((intent.map (fun q => (q.1, q.2 * 10 ^ d))).map Prod.snd) (10 ^ d) i
    (by rw [hsvlen]; exact hi)
  rw [hsv_getD] at hentry
  rw [hsnd, hentry]
  have hfl : (⌊(intent.map Prod.snd).getD i 0 * 10 ^ d⌋ : ℚ)
      ≤ (intent.map Prod.snd).getD i 0 * 10 ^ d := Int.floor_le _
  have hfu : (intent.map Prod.snd).getD i 0 * 10 ^ d
      < (⌊(intent.map Prod.snd).getD i 0 * 10 ^ d⌋ : ℚ) + 1 := Int.lt_floor_add_one _
  constructor
  · split
    · right; rfl
    · left; rw [add_zero]
  · split <;> rw [abs_le] <;> constructor <;> push_cast <;> linarith

/-- Witness for C1's amended theorem at a concrete accepted intent. -/
theorem validate_order_sum_eq_pow_witness :
    (([(("A" : String), (1 : ℤ))]).map Prod.snd).sum = 10 ^ 0 :=
  validate_order_sum_eq_pow ["A"] 0 (fun _ => 0) [("A", 1)] false [("A", 1)]
    (by norm_num [validate_order, isclose, round_with_fixed_sum, argsortNegDesc,
      pyTake, List.range_succ])
    (Or.inr (by simp))

/-- C1 counterexample: an intent whose weights sum to `1 + 10⁻¹⁰` passes
validation (it is within the claimed absolute tolerance `1e-10`), yet at
`decimals = 18` the returned amounts sum to `10¹⁸ + 10⁸`, not `10¹⁸`. -/
theorem validate_order_sum_cex :
    ((validate_order ["A", "B"] 18 (fun _ => 0)
        [("A", (10 ^ 10 + 1) / (2 * 10 ^ 10)),
         ("B", (10 ^ 10 + 1) / (2 * 10 ^ 10))] false).1
      = Except.ok [("A", 500000000050000000), ("B", 500000000050000000)]) ∧
    |(([("A", ((10 ^ 10 + 1 : ℚ)) / (2 * 10 ^ 10)),
        ("B", (10 ^ 10 + 1) / (2 * 10 ^ 10))].map Prod.snd).sum) - 1|
      ≤ 1 / 10 ^ 10 ∧
    ([(("A" : String), (500000000050000000 : ℤ)),
      ("B", 500000000050000000)].map Prod.snd).sum ≠ 10 ^ 18 := by
  refine ⟨?_, by norm_num [abs_le], by norm_num⟩
  have habs : |(1 : ℚ) / 10000000000| = 1 / 10000000000 :=
    abs_of_nonneg (by norm_num)
  have htn : ((-99999998 : ℤ)).toNat = 0 := rfl
  norm_num [validate_order, isclose, round_with_fixed_sum, argsortNegDesc,
    pyTake, List.range_succ, List.insertionSort, List.orderedInsert, habs, htn]

/-- Witness for C2's amended theorem at a concrete accepted intent. -/
theorem validate_order_entry_floor_witness :
    (([(("A" : String), (1 : ℤ))].map Prod.snd).getD 0 0
        = ⌊([(("A" : String), (1 : ℚ))].map Prod.snd).getD 0 0 * 10 ^ 0⌋ ∨
      ([(("A" : String), (1 : ℤ))].map Prod.snd).getD 0 0
        = ⌊([(("A" : String), (1 : ℚ))].map Prod.snd).getD 0 0 * 10 ^ 0⌋ + 1) ∧
    |((([(("A" : String), (1 : ℤ))].map Prod.snd).getD 0 0 : ℤ) : ℚ)
        - ([(("A" : String), (1 : ℚ))].map Prod.snd).getD 0 0 * 10 ^ 0| ≤ 1 :=
  validate_order_entry_floor ["A"] 0 (fun _ => 0) [("A", 1)] [("A", 1)] 0
    (by norm_num [validate_order, isclose, round_with_fixed_sum, argsortNegDesc,
      pyTake, List.range_succ])
    (by decide)

/-- C2 counterexample: an intent whose weights sum to `1 - 10⁻¹⁰` passes
validation (within the claimed tolerance `1e-10`); at `decimals = 18`
every scaled weight is the integer `499999999950000000`, yet both
returned amounts are `499999999950000001`: the deviation equals `1`,
violating the claimed strict bound `< 1`. -/
theorem validate_order_entry_cex :
    ((validate_order ["A", "B"] 18 (fun _ => 0)
        [("A", (10 ^ 10 - 1) / (2 * 10 ^ 10)),
         ("B", (10 ^ 10 - 1) / (2 * 10 ^ 10))] false).1
      = Except.ok [("A", 499999999950000001), ("B", 499999999950000001)]) ∧
    |(([("A", ((10 ^ 10 - 1 : ℚ)) / (2 * 10 ^ 10)),
        ("B", (10 ^ 10 - 1) / (2 * 10 ^ 10))].map Prod.snd).sum) - 1|
      ≤ 1 / 10 ^ 10 ∧
    ¬ (|((499999999950000001 : ℤ) : ℚ)
          - ((10 ^ 10 - 1 : ℚ)) / (2 * 10 ^ 10) * 10 ^ 18| < 1) := by
  refine ⟨?_, by norm_num [abs_le], by norm_num [abs_le]⟩
  have habs : |(1 : ℚ) / 10000000000| = 1 / 10000000000 :=
    abs_of_nonneg (by norm_num)
  have htake : List.take ((100000000 : ℤ)).toNat ([0, 1] : List ℕ) = [0, 1] :=
    List.take_of_length_le (by norm_num)
  norm_num [validate_order, isclose, round_with_fixed_sum, argsortNegDesc,
    pyTake, List.range_succ, List.insertionSort, List.orderedInsert, habs, htake]

lemma contains_all_of_find?_none {wl : List String}
    {intent : List (String × ℚ)}
    (h : intent.find? (fun p => !(wl.contains p.1)) = none) :
    ∀ p ∈ intent, wl.contains p.1 = true := by
  intro p hp
  have hnp := List.find?_eq_none.mp h p hp
  simpa using hnp

lemma exists_nonpos_of_any {intent : List (String × ℚ)}
    (h : intent.any (fun p => decide (p.2 ≤ 0)) = true) :
    ∃ p ∈ intent, p.2 ≤ 0 := by
  rcases List.any_eq_true.mp h with ⟨p, hp, hd⟩
  exact ⟨p, hp, by simpa using hd⟩

lemma isclose_sum_iff (s : ℚ) :
    isclose s 1 (1 / 10 ^ 10) (1 / 10 ^ 5) = true
      ↔ |s - 1| ≤ 1 / 10 ^ 10 + 1 / 10 ^ 5 := by
  rw [isclose, decide_eq_true_eq, abs_one, mul_one]

lemma validate_order_cases (wl : List String) (d : ℕ) (g : ℕ → ℕ)
    (intent : List (String × ℚ)) (fuzz : Bool) :
    (∃ e, validate_order wl d g intent fuzz = (Except.error e, intent)) ∨
    (∃ out, (validate_order wl d g intent fuzz).1 = Except.ok out ∧
       (validate_order wl d g intent fuzz).2
         = (if fuzz = true then (addDust d intent g wl).1 else intent)) := by
  unfold validate_order
  split
  · exact Or.inl ⟨_, rfl⟩
  · split
    · exact Or.inl ⟨_, rfl⟩
    · split
      · exact Or.inl ⟨_, rfl⟩
      · exact Or.inr ⟨_, rfl, rfl⟩

/-- C4 (amended): the three checks fire in order — `InvalidTokenError`
exactly when some token is not whitelisted, `InvalidWeightError` exactly
when (all tokens whitelisted) some weight is non-positive, and
`InvalidSumError` exactly when (the previous checks passing) the weight
sum is not within `1e-10 + 1e-5` of `1` — the effective tolerance of
`np.isclose(·, 1, atol=1e-10)` with its default `rtol=1e-5`, not the
absolute `1e-10` of the original claim.  No normalized result is
returned in any error case. -/
theorem validate_order_error_cases (wl : List String) (d : ℕ) (g : ℕ → ℕ)
    (intent : List (String × ℚ)) (fuzz : Bool) :
    ((∃ t, (validate_order wl d g intent fuzz).1
        = Except.error (OrderError.invalidToken t))
      ↔ ∃ p ∈ intent, wl.contains p.1 = false) ∧
    ((validate_order wl d g intent fuzz).1 = Except.error OrderError.invalidWeight
      ↔ ((∀ p ∈ intent, wl.contains p.1 = true) ∧ ∃ p ∈ intent, p.2 ≤ 0)) ∧
    ((validate_order wl d g intent fuzz).1 = Except.error OrderError.invalidSum
      ↔ ((∀ p ∈ intent, wl.contains p.1 = true) ∧ (∀ p ∈ intent, 0 < p.2) ∧
         ¬ |((intent.map Prod.snd).sum) - 1| ≤ 1 / 10 ^ 10 + 1 / 10 ^ 5)) := by
  cases hf : intent.find? (fun p => !(wl.contains p.1)) with
  | some p =>
    have hp_mem : p ∈ intent := List.mem_of_find?_eq_some hf
    have hp_false : wl.contains p.1 = false := by
      have hps := List.find?_some hf
      simpa using hps
    have hres : (validate_order wl d g intent fuzz).1
        = Except.error (OrderError.invalidToken p.1) := by
      unfold validate_order
      rw [hf]
    refine ⟨⟨fun _ => ⟨p, hp_mem, hp_false⟩, fun _ => ⟨p.1, hres⟩⟩, ?_, ?_⟩
    · constructor
      · intro h
        rw [hres] at h
        simp at h
      · rintro ⟨hall, -⟩
        rw [hall p hp_mem] at hp_false
        exact absurd hp_false (by simp)
    · constructor
      · intro h
        rw [hres] at h
        simp at h
      · rintro ⟨hall, -, -⟩
        rw [hall p hp_mem] at hp_false
        exact absurd hp_false (by simp)
  | none =>
    have hall : ∀ p ∈ intent, wl.contains p.1 = true :=
      contains_all_of_find?_none hf
    have hnotex : ¬ ∃ p ∈ intent, wl.contains p.1 = false := by
      rintro ⟨p, hp, hfalse⟩
      rw [hall p hp] at hfalse
      exact absurd hfalse (by simp)
    cases h2 : intent.any (fun p => decide (p.2 ≤ 0)) with
    | true =>
      have hres : (validate_order wl d g intent fuzz).1
          = Except.error OrderError.invalidWeight := by
        unfold validate_order
        rw [hf, h2]
        rfl
      refine ⟨?_, ?_, ?_⟩
      · constructor
        · rintro ⟨t, ht⟩
          rw [hres] at ht
          simp at ht
        · intro h
          exact absurd h hnotex
      · exact ⟨fun _ => ⟨hall, exists_nonpos_of_any h2⟩, fun _ => hres⟩
      · constructor
        · intro h
          rw [hres] at h
          simp at h
        · rintro ⟨-, hpos, -⟩
          rcases exists_nonpos_of_any h2 with ⟨p, hp, hle⟩
          exact absurd (hpos p hp) (not_lt.mpr hle)
    | false =>
      have hpos : ∀ p ∈ intent, 0 < p.2 := all_pos_of_any_eq_false h2
      cases h3 : isclose ((intent.map Prod.snd).sum) 1 (1 / 10 ^ 10) (1 / 10 ^ 5) with
      | false =>
        have hres : (validate_order wl d g intent fuzz).1
            = Except.error OrderError.invalidSum := by
          unfold validate_order
          rw [hf, h2, h3]
          rfl
        have hsum_not : ¬ |((intent.map Prod.snd).sum) - 1|
            ≤ 1 / 10 ^ 10 + 1 / 10 ^ 5 := by
          intro hle
          have hcl := (isclose_sum_iff _).mpr hle
          rw [h3] at hcl
          exact Bool.noConfusion hcl
        refine ⟨?_, ?_, ?_⟩
        · constructor
          · rintro ⟨t, ht⟩
            rw [hres] at ht
            simp at ht
          · intro h
            exact absurd h hnotex
        · constructor
          · intro h
            rw [hres] at h
            simp at h
          · rintro ⟨-, p, hp, hle⟩
            exact absurd (hpos p hp) (not_lt.mpr hle)
        · exact ⟨fun _ => ⟨hall, hpos, hsum_not⟩, fun _ => hres⟩
      | true =>
        have hok : ∃ out, (validate_order wl d g intent fuzz).1
            = Except.ok out := by
          cases fuzz with
          | false => exact ⟨_, by rw [validate_order_false_eq wl d g intent hf h2 h3]⟩
          | true => exact ⟨_, by rw [validate_order_true_eq wl d g intent hf h2 h3]⟩
        rcases hok with ⟨out, hok⟩
        have hsum_le : |((intent.map Prod.snd).sum) - 1|
            ≤ 1 / 10 ^ 10 + 1 / 10 ^ 5 := (isclose_sum_iff _).mp h3
        refine ⟨?_, ?_, ?_⟩
        · constructor
          · rintro ⟨t, ht⟩
            rw [hok] at ht
            simp at ht
          · intro h
            exact absurd h hnotex
        · constructor
          · intro h
            rw [hok] at h
            simp at h
          · rintro ⟨-, p, hp, hle⟩
            exact absurd (hpos p hp) (not_lt.mpr hle)
        · constructor
          · intro h
            rw [hok] at h
            simp at h
          · rintro ⟨-, -, hnot⟩
            exact absurd hsum_le hnot

/-- C4 counterexample: weights summing to `1.000001` are accepted by
`validate_order` (the `np.isclose` default `rtol=1e-5` dominates), even
though their sum is not within the claimed absolute tolerance `1e-10`
of `1`, where the claim demands `InvalidSumError`. -/
theorem validate_order_tolerance_cex :
    ((validate_order ["A", "B"] 2 (fun _ => 0)
        [("A", 1 / 2), ("B", 500001 / 1000000)] false).1
      = Except.ok [("A", 50), ("B", 50)]) ∧
    ¬ (|(([("A", (1 : ℚ) / 2), ("B", 500001 / 1000000)].map Prod.snd).sum) - 1|
        ≤ 1 / 10 ^ 10) := by
  constructor
  · have habs : |(1 : ℚ) / 1000000| = 1 / 1000000 := abs_of_nonneg (by norm_num)
    norm_num [validate_order, isclose, round_with_fixed_sum, argsortNegDesc,
      pyTake, List.range_succ, List.insertionSort, List.orderedInsert, habs]
  · norm_num [abs_le]

/-- C6 (amended): the caller's mapping is unchanged whenever fuzzing is
disabled, and whenever validation fails (the error is raised before the
fuzz loop); with fuzz enabled on an accepted intent the dust entries are
appended to the caller's mapping in place (see the counterexample). -/
theorem validate_order_frame (wl : List String) (d : ℕ) (g : ℕ → ℕ)
    (intent : List (String × ℚ)) (fuzz : Bool) :
    ((validate_order wl d g intent false).2 = intent) ∧
    (∀ e, (validate_order wl d g intent fuzz).1 = Except.error e →
      (validate_order wl d g intent fuzz).2 = intent) := by
  constructor
  · rcases validate_order_cases wl d g intent false with ⟨e, heq⟩ | ⟨out, -, hsnd⟩
    · rw [heq]
    · rw [hsnd]
      simp
  · intro e he
    rcases validate_order_cases wl d g intent fuzz with ⟨e', heq⟩ | ⟨out, hok, -⟩
    · rw [heq]
    · rw [hok] at he
      exact absurd he (by simp)

/-- Witness for C6's amended theorem at a concrete rejected fuzzed call. -/
theorem validate_order_frame_witness :
    (validate_order ["A"] 0 (fun _ => 0) [("B", 1)] true).2 = [("B", 1)] :=
  (validate_order_frame ["A"] 0 (fun _ => 0) [("B", 1)] true).2
    (OrderError.invalidToken "B") (by rfl)

/-- C6 counterexample: with fuzz enabled on a valid intent, the fuzz
loop writes dust entries into the caller's mapping: after the call the
caller's dict has gained `("B", 3/100)` and is no longer `[("A", 1)]`. -/
theorem validate_order_mutation_cex :
    (validate_order ["A", "B"] 2 (fun _ => 2) [("A", 1)] true).2
      ≠ [("A", 1)] := by
  have heval : (validate_order ["A", "B"] 2 (fun _ => 2) [("A", 1)] true).2
      = [("A", 1), ("B", 3 / 100)] := by
    norm_num [validate_order, isclose, addDust, randint110, round_with_fixed_sum,
      argsortNegDesc, pyTake, List.range_succ, List.insertionSort,
      List.orderedInsert]
    rw [if_neg (by decide : ¬ ("B" : String) = "A")]
  rw [heval]
  simp

/-- C7: fuzz determinism — two invocations whose seeded generators
produce the same draws, on the same whitelist in the same order and the
same intent, return identical results (dust allocations included). -/
theorem validate_order_fuzz_deterministic (wl : List String) (d : ℕ)
    (intent : List (String × ℚ)) (g g' : ℕ → ℕ) (h : ∀ n, g n = g' n) :
    validate_order wl d g intent true = validate_order wl d g' intent true := by
  have hg : g = g' := funext h
  rw [hg]

/-- Witness for C7's theorem at a concrete generator. -/
theorem validate_order_fuzz_deterministic_witness :
    validate_order ["A"] 2 (fun _ => 0) [("A", 1)] true
      = validate_order ["A"] 2 (fun _ => 0) [("A", 1)] true :=
  validate_order_fuzz_deterministic ["A"] 2 [("A", 1)] (fun _ => 0)
    (fun _ => 0) (fun _ => rfl)

/-- C8: for every accepted input, the mapping returned by
`validate_order` has exactly the keys of the (possibly fuzz-extended)
input mapping, in the same order. -/
theorem validate_order_keys_preserved (wl : List String) (d : ℕ) (g : ℕ → ℕ)
    (intent : List (String × ℚ)) (fuzz : Bool) (out : List (String × ℤ))
    (hok : (validate_order wl d g intent fuzz).1 = Except.ok out) :
    out.map Prod.fst
      = (if fuzz = true then (addDust d intent g wl).1 else intent).map
          Prod.fst := by
  obtain ⟨h1, h2, h3⟩ := validate_order_ok_inv hok
  cases fuzz with
  | false =>
    rw [validate_order_false_eq wl d g intent h1 h2 h3] at hok
    simp only at hok
    have hout := ((Except.ok.injEq _ _).mp hok).symm
    rw [hout, List.map_fst_zip]
    · rw [List.map_map]
      simp only [Bool.false_eq_true, if_false]
      rfl
    · simp only [round_with_fixed_sum_length, List.length_map]
      exact le_rfl
  | true =>
    rw [validate_order_true_eq wl d g intent h1 h2 h3] at hok
    simp only at hok
    have hout := ((Except.ok.injEq _ _).mp hok).symm
    rw [hout, List.map_fst_zip]
    · rw [List.map_map, List.map_map]
      simp only [if_pos rfl]
      rfl
    · simp only [round_with_fixed_sum_length, List.length_map]
      exact le_rfl

/-- Witness for C8's theorem at a concrete accepted intent. -/
theorem validate_order_keys_preserved_witness :
    ([(("A" : String), (1 : ℤ))]).map Prod.fst
      = (if false = true
          then (addDust 0 [(("A" : String), (1 : ℚ))] (fun _ => 0) ["A"]).1
          else [(("A" : String), (1 : ℚ))]).map Prod.fst :=
  validate_order_keys_preserved ["A"] 0 (fun _ => 0) [("A", 1)] false
    [("A", 1)]
    (by norm_num [validate_order, isclose, round_with_fixed_sum, argsortNegDesc,
      pyTake, List.range_succ])

/-- C9: idempotence of the rounding step — a list of integer values
whose target is exactly its own sum is returned unchanged by
`round_with_fixed_sum` (all fractional parts are zero and the remainder
is zero, so no entry is incremented). -/
theorem round_with_fixed_sum_idempotent (zs : List ℤ) :
    round_with_fixed_sum (zs.map (fun z : ℤ => (z : ℚ))) zs.sum = zs := by
  have hfl : (zs.map (fun z : ℤ => (z : ℚ))).map (fun x => ⌊x⌋) = zs := by
    rw [List.map_map]
    have hcomp : ((fun x : ℚ => ⌊x⌋) ∘ fun z : ℤ => (z : ℚ)) = id := by
      funext z
      simp [Int.floor_intCast]
    rw [hcomp, List.map_id]
  have hchosen : chosenIdx (zs.map (fun z : ℤ => (z : ℚ))) zs.sum = [] := by
    rw [chosenIdx, hfl, sub_self, pyTake_of_nonneg _ _ le_rfl]
    rfl
  rw [round_with_fixed_sum_eq, hchosen, hfl]
  simp only [List.not_mem_nil, if_false, add_zero, List.length_map]
  exact map_range_getD zs 0

/-- C10: the empty intent always fails the sum check, for either value
of the fuzz flag — the whitelist and positivity checks pass vacuously,
the sum `0` is not close to `1`, and the fuzz step is never reached, so
the caller's (empty) mapping is returned unchanged with the error. -/
theorem validate_order_empty (wl : List String) (d : ℕ) (g : ℕ → ℕ)
    (fuzz : Bool) :
    validate_order wl d g [] fuzz = (Except.error OrderError.invalidSum, []) := by
  have habs : ¬ isclose ((List.map Prod.snd ([] : List (String × ℚ))).sum) 1
      (1 / 10 ^ 10) (1 / 10 ^ 5) = true := by
    rw [isclose]
    simp only [List.map_nil, List.sum_nil, decide_eq_true_eq]
    rw [zero_sub, abs_neg, abs_one]
    norm_num
  cases hIC : isclose ((List.map Prod.snd ([] : List (String × ℚ))).sum) 1
      (1 / 10 ^ 10) (1 / 10 ^ 5) with
  | true => exact absurd hIC habs
  | false =>
    unfold validate_order
    rw [List.find?_nil, List.any_nil, hIC]
    rfl

lemma argsortNegDesc_sorted (keys : List ℚ) :
    (argsortNegDesc keys).Pairwise (fun i j => keys.getD j 0 ≤ keys.getD i 0) := by
  haveI htot : IsTotal ℕ (fun i j => keys.getD j 0 ≤ keys.getD i 0) :=
    ⟨fun a b => le_total _ _⟩
  haveI htrans : IsTrans ℕ (fun i j => keys.getD j 0 ≤ keys.getD i 0) :=
    ⟨fun a b c hab hbc => le_trans hbc hab⟩
  exact List.sorted_insertionSort _ _

lemma frac_getD_bounds (v : List ℚ) (i : ℕ) :
    0 ≤ (v.map (fun x => x - (⌊x⌋ : ℚ))).getD i 0 ∧
    (v.map (fun x => x - (⌊x⌋ : ℚ))).getD i 0 < 1 := by
  by_cases hi : i < v.length
  · rw [getD_map_of_lt (fun x => x - (⌊x⌋ : ℚ)) v i hi 0 0]
    constructor
    · exact sub_nonneg.mpr (Int.floor_le _)
    · have hlt := Int.lt_floor_add_one (v.getD i 0)
      linarith
  · rw [List.getD_eq_default]
    · norm_num
    · rw [List.length_map]
      omega

lemma mem_take_pos {α : Type} (l : List α) (k : ℕ) (a : α)
    (h : a ∈ l.take k) :
    ∃ p, ∃ hp : p < l.length, p < k ∧ l.get ⟨p, hp⟩ = a := by
  rcases List.mem_iff_get.mp h with ⟨⟨p, hp⟩, hget⟩
  have hpmin : p < k ⊓ l.length := by
    rw [← List.length_take]
    exact hp
  have hpl : p < l.length := lt_of_lt_of_le hpmin (min_le_right _ _)
  have hpk : p < k := lt_of_lt_of_le hpmin (min_le_left _ _)
  refine ⟨p, hpl, hpk, ?_⟩
  rw [← hget]
  exact (List.getElem_take l).symm

lemma get_mem_take {α : Type} (l : List α) (k p : ℕ) (hp : p < l.length)
    (hpk : p < k) : l.get ⟨p, hp⟩ ∈ l.take k := by
  have hptake : p < (l.take k).length := by
    rw [List.length_take]
    exact lt_min hpk hp
  have hgt : (l.take k).get ⟨p, hptake⟩ = l.get ⟨p, hp⟩ :=
    List.getElem_take l
  rw [← hgt]
  exact List.get_mem _ _ _

/-- The per-entry linear lower bound behind largest-remainder optimality:
for a fractional part `φ` separated from the threshold `θ` according to
whether the entry was incremented (`s = 1`) or not (`s = 0`), the change
in absolute error when moving to any other integer offset `δ` is at
least `(1 - 2θ)(δ - s)`. -/
lemma per_index_bound (φ θ : ℚ) (δ s : ℤ) (hs : s = 0 ∨ s = 1)
    (hφ0 : 0 ≤ φ) (hφ1 : φ < 1) (hθ0 : 0 ≤ θ) (hθ1 : θ ≤ 1)
    (hsep1 : s = 1 → θ ≤ φ) (hsep0 : s = 0 → φ ≤ θ) :
    (1 - 2 * θ) * ((δ : ℚ) - (s : ℚ)) ≤ |(δ : ℚ) - φ| - |(s : ℚ) - φ| := by
  have hδ : (δ : ℚ) ≤ 0 ∨ 1 ≤ (δ : ℚ) := by
    rcases le_or_lt δ 0 with h | h
    · left
      exact_mod_cast h
    · right
      exact_mod_cast h
  rcases hs with rfl | rfl
  · have hφθ : φ ≤ θ := hsep0 rfl
    have habs0 : |((0 : ℤ) : ℚ) - φ| = φ := by
      rw [Int.cast_zero, zero_sub, abs_neg, abs_of_nonneg hφ0]
    rw [habs0, Int.cast_zero, sub_zero]
    rcases hδ with h | h
    · rw [abs_of_nonpos (by linarith : (δ : ℚ) - φ ≤ 0)]
      have hprod : 0 ≤ (2 - 2 * θ) * (-(δ : ℚ)) :=
        mul_nonneg (by linarith) (by linarith)
      nlinarith
    · rw [abs_of_nonneg (by linarith : 0 ≤ (δ : ℚ) - φ)]
      have hprod : θ * 1 ≤ θ * (δ : ℚ) :=
        mul_le_mul_of_nonneg_left h hθ0
      nlinarith
  · have hθφ : θ ≤ φ := hsep1 rfl
    have habs1 : |((1 : ℤ) : ℚ) - φ| = 1 - φ := by
      rw [Int.cast_one, abs_of_nonneg (by linarith)]
    rw [habs1, Int.cast_one]
    rcases hδ with h | h
    · rw [abs_of_nonpos (by linarith : (δ : ℚ) - φ ≤ 0)]
      have hprod : 0 ≤ (1 - θ) * (-(δ : ℚ)) :=
        mul_nonneg (by linarith) (by linarith)
      nlinarith
    · rw [abs_of_nonneg (by linarith : 0 ≤ (δ : ℚ) - φ)]
      have hprod : 0 ≤ θ * ((δ : ℚ) - 1) :=
        mul_nonneg hθ0 (by linarith)
      nlinarith

/-- `per_index_bound` rephrased for an entry with real value `w`,
rounded value `⌊w⌋ + s`, and candidate value `yi`. -/
lemma per_index_floor_bound (w θ : ℚ) (yi s : ℤ) (hs : s = 0 ∨ s = 1)
    (hθ0 : 0 ≤ θ) (hθ1 : θ ≤ 1)
    (hsep1 : s = 1 → θ ≤ w - ⌊w⌋) (hsep0 : s = 0 → w - ⌊w⌋ ≤ θ) :
    (1 - 2 * θ) * ((yi : ℚ) - ((⌊w⌋ + s : ℤ) : ℚ))
      ≤ |(yi : ℚ) - w| - |((⌊w⌋ + s : ℤ) : ℚ) - w| := by
  have hφ0 : 0 ≤ w - (⌊w⌋ : ℚ) := sub_nonneg.mpr (Int.floor_le w)
  have hφ1 : w - (⌊w⌋ : ℚ) < 1 := by
    have hlt := Int.lt_floor_add_one w
    linarith
  have h := per_index_bound (w - ⌊w⌋) θ (yi - ⌊w⌋) s hs hφ0 hφ1 hθ0 hθ1
    hsep1 hsep0
  have e1 : ((yi - ⌊w⌋ : ℤ) : ℚ) - (w - ⌊w⌋) = (yi : ℚ) - w := by
    push_cast
    ring
  have e2 : ((s : ℤ) : ℚ) - (w - ⌊w⌋) = ((⌊w⌋ + s : ℤ) : ℚ) - w := by
    push_cast
    ring
  have e3 : ((yi - ⌊w⌋ : ℤ) : ℚ) - ((s : ℤ) : ℚ)
      = (yi : ℚ) - ((⌊w⌋ + s : ℤ) : ℚ) := by
    push_cast
    ring
  rw [e1, e2, e3] at h
  exact h

lemma zipWith_sum_eq_range {α β : Type} (f : α → β → ℚ) (dx : α) (dv : β) :
    ∀ (x : List α) (v : List β), x.length = v.length →
      (List.zipWith f x v).sum
        = ∑ i in Finset.range v.length, f (x.getD i dx) (v.getD i dv) := by
  intro x
  induction x with
  | nil =>
    intro v hv
    have : v = [] := List.length_eq_zero.mp hv.symm
    subst this
    simp
  | cons a xs ih =>
    intro v hv
    cases v with
    | nil => simp at hv
    | cons b vs =>
      simp only [List.length_cons] at hv
      rw [List.zipWith_cons_cons, List.sum_cons, List.length_cons,
        Finset.sum_range_succ']
      simp only [List.getD_cons_succ, List.getD_cons_zero]
      rw [ih vs (by omega)]
      exact add_comm _ _

lemma errSum_eq_sum_range (x : List ℤ) (v : List ℚ) (h : x.length = v.length) :
    errSum x v = ∑ i in Finset.range v.length,
      |((x.getD i 0 : ℤ) : ℚ) - v.getD i 0| := by
  rw [errSum]
  exact zipWith_sum_eq_range (fun (a : ℤ) (b : ℚ) => |(a : ℚ) - b|) 0 0 x v h

/-- Existence of a separating threshold: the chosen indices all have
fractional part at least `θ`, the unchosen ones at most `θ`. -/
lemma chosen_separation (v : List ℚ) (t : ℤ)
    (h0 : 0 ≤ t - (v.map (fun x => ⌊x⌋)).sum) :
    ∃ θ : ℚ, 0 ≤ θ ∧ θ ≤ 1 ∧
      (∀ i ∈ chosenIdx v t, θ ≤ (v.map (fun x => x - (⌊x⌋ : ℚ))).getD i 0) ∧
      (∀ i < v.length, i ∉ chosenIdx v t →
        (v.map (fun x => x - (⌊x⌋ : ℚ))).getD i 0 ≤ θ) := by
  have hchosen : chosenIdx v t
      = (argsortNegDesc (v.map (fun x => x - (⌊x⌋ : ℚ)))).take
          (t - (v.map (fun x => ⌊x⌋)).sum).toNat := by
    rw [chosenIdx, pyTake_of_nonneg _ _ h0]
  set fr := v.map (fun x => x - (⌊x⌋ : ℚ)) with hfr
  set idx := argsortNegDesc fr with hidx
  set k := (t - (v.map (fun x => ⌊x⌋)).sum).toNat with hk
  have hidxlen : idx.length = v.length := by
    rw [hidx, argsortNegDesc_length, hfr, List.length_map]
  have hsorted : idx.Pairwise (fun i j => fr.getD j 0 ≤ fr.getD i 0) := by
    rw [hidx]
    exact argsortNegDesc_sorted fr
  by_cases hk0 : k = 0
  · refine ⟨1, by norm_num, le_rfl, ?_, ?_⟩
    · intro i hi
      rw [hchosen, hk0] at hi
      simp at hi
    · intro i _ _
      exact le_of_lt (frac_getD_bounds v i).2
  · by_cases hkn : idx.length ≤ k
    · refine ⟨0, le_rfl, by norm_num, ?_, ?_⟩
      · intro i _
        exact (frac_getD_bounds v i).1
      · intro i hilt hnot
        exfalso
        apply hnot
        rw [hchosen, List.take_of_length_le hkn, hidx, argsortNegDesc_mem,
          hfr, List.length_map]
        exact hilt
    · push_neg at hkn
      have hk1 : k - 1 < idx.length := by omega
      refine ⟨fr.getD (idx.get ⟨k - 1, hk1⟩) 0,
        (frac_getD_bounds v _).1, le_of_lt (frac_getD_bounds v _).2, ?_, ?_⟩
      · intro i hi
        rw [hchosen] at hi
        obtain ⟨p, hp, hpk, hget⟩ := mem_take_pos idx k i hi
        rcases eq_or_lt_of_le (by omega : p ≤ k - 1) with heq | hlt
        · have hfin : (⟨p, hp⟩ : Fin idx.length) = ⟨k - 1, hk1⟩ :=
            Fin.ext heq
          rw [← hget, hfin]
        · have hrel := List.pairwise_iff_get.mp hsorted ⟨p, hp⟩ ⟨k - 1, hk1⟩
            (by exact_mod_cast hlt)
          rw [← hget]
          exact hrel
      · intro i hilt hnot
        have himem : i ∈ idx := by
          rw [hidx, argsortNegDesc_mem, hfr, List.length_map]
          exact hilt
        obtain ⟨⟨q, hq⟩, hget⟩ := List.mem_iff_get.mp himem
        have hqk : k ≤ q := by
          by_contra hlt'
          push_neg at hlt'
          apply hnot
          rw [hchosen, ← hget]
          exact get_mem_take idx k q hq hlt'
        have hrel := List.pairwise_iff_get.mp hsorted ⟨k - 1, hk1⟩ ⟨q, hq⟩
          (by exact_mod_cast (by omega : k - 1 < q))
        rw [← hget]
        exact hrel

/-- C5 (amended): when the remainder `t - Σ⌊vᵢ⌋` lies between `0` and
the number of entries, the vector returned by `round_with_fixed_sum`
sums to the target and minimizes the total rounding error `errSum`
among all integer vectors of the same length summing to the target —
in particular among the non-negative ones the original claim ranges
over.  (Without the remainder condition the claim fails; see the
counterexample.) -/
theorem round_with_fixed_sum_min_err (v : List ℚ) (t : ℤ) (y : List ℤ)
    (h0 : 0 ≤ t - (v.map (fun x => ⌊x⌋)).sum)
    (hn : t - (v.map (fun x => ⌊x⌋)).sum ≤ (v.length : ℤ))
    (hylen : y.length = v.length) (hysum : y.sum = t) :
    errSum (round_with_fixed_sum v t) v ≤ errSum y v := by
  obtain ⟨θ, hθ0, hθ1, hsepS, hsepC⟩ := chosen_separation v t h0
  have hxlen : (round_with_fixed_sum v t).length = v.length :=
    round_with_fixed_sum_length v t
  have hxsum : (round_with_fixed_sum v t).sum = t :=
    round_with_fixed_sum_sum v t h0 hn
  rw [errSum_eq_sum_range _ v hxlen, errSum_eq_sum_range y v hylen]
  have key : ∀ i ∈ Finset.range v.length,
      (1 - 2 * θ) * (((y.getD i 0 : ℤ) : ℚ)
          - (((round_with_fixed_sum v t).getD i 0 : ℤ) : ℚ))
        ≤ |((y.getD i 0 : ℤ) : ℚ) - v.getD i 0|
          - |(((round_with_fixed_sum v t).getD i 0 : ℤ) : ℚ) - v.getD i 0| := by
    intro i hi
    rw [Finset.mem_range] at hi
    have hxi := round_with_fixed_sum_getD v t i hi
    rw [hxi]
    refine per_index_floor_bound (v.getD i 0) θ (y.getD i 0)
      (if i ∈ chosenIdx v t then 1 else 0) ?_ hθ0 hθ1 ?_ ?_
    · split
      · exact Or.inr rfl
      · exact Or.inl rfl
    · intro h1
      by_cases hm : i ∈ chosenIdx v t
      · have hsep := hsepS i hm
        rw [getD_map_of_lt (fun x => x - (⌊x⌋ : ℚ)) v i hi 0 0] at hsep
        exact hsep
      · rw [if_neg hm] at h1
        exact absurd h1 (by norm_num)
    · intro h1
      by_cases hm : i ∈ chosenIdx v t
      · rw [if_pos hm] at h1
        exact absurd h1 (by norm_num)
      · have hsep := hsepC i hi hm
        rw [getD_map_of_lt (fun x => x - (⌊x⌋ : ℚ)) v i hi 0 0] at hsep
        exact hsep
  have hsum_ineq := Finset.sum_le_sum key
  rw [← Finset.mul_sum, Finset.sum_sub_distrib, Finset.sum_sub_distrib]
    at hsum_ineq
  have hysumq : ∑ i in Finset.range v.length, ((y.getD i 0 : ℤ) : ℚ)
      = (t : ℚ) := by
    rw [show (∑ i in Finset.range v.length, ((y.getD i 0 : ℤ) : ℚ))
        = ((∑ i in Finset.range v.length, y.getD i 0 : ℤ) : ℚ) by
          push_cast
          rfl]
    rw [← hylen, sum_range_getD, hysum]
  have hxsumq : ∑ i in Finset.range v.length,
      (((round_with_fixed_sum v t).getD i 0 : ℤ) : ℚ) = (t : ℚ) := by
    rw [show (∑ i in Finset.range v.length,
          (((round_with_fixed_sum v t).getD i 0 : ℤ) : ℚ))
        = ((∑ i in Finset.range v.length,
            (round_with_fixed_sum v t).getD i 0 : ℤ) : ℚ) by
          push_cast
          rfl]
    rw [← hxlen, sum_range_getD, hxsum]
  rw [hysumq, hxsumq, sub_self, mul_zero] at hsum_ineq
  linarith [hsum_ineq]

/-- Witness for C5's amended theorem at a concrete input. -/
theorem round_with_fixed_sum_min_err_witness :
    errSum (round_with_fixed_sum [1 / 2, 1 / 2] 1) [1 / 2, 1 / 2]
      ≤ errSum [0, 1] [1 / 2, 1 / 2] :=
  round_with_fixed_sum_min_err [1 / 2, 1 / 2] 1 [0, 1]
    (by norm_num) (by norm_num) (by norm_num) (by norm_num)

/-- C5 counterexample: at `values = [2, 0, 0]`, `target_sum = 1` the
remainder is negative and the Python slice `indices[:-1]` still
increments two entries: the function returns `[3, 1, 0]`, whose total
rounding error is `2`, while the non-negative integer vector
`[1, 0, 0]` of the same length sums to the target with error `1` — the
returned vector neither sums to the target nor minimizes the error. -/
theorem round_with_fixed_sum_min_cex :
    round_with_fixed_sum [2, 0, 0] 1 = [3, 1, 0] ∧
    ([(1 : ℤ), 0, 0].sum = 1 ∧
      ([(1 : ℤ), 0, 0]).length = ([(2 : ℚ), 0, 0]).length ∧
      ∀ a ∈ [(1 : ℤ), 0, 0], 0 ≤ a) ∧
    errSum [1, 0, 0] [2, 0, 0]
      < errSum (round_with_fixed_sum [2, 0, 0] 1) [2, 0, 0] := by
  have hr : round_with_fixed_sum [2, 0, 0] 1 = [3, 1, 0] := by
    have htake : List.take (Int.toNat 2) ([0, 1, 2] : List ℕ) = [0, 1] := rfl
    norm_num [round_with_fixed_sum, argsortNegDesc, pyTake, List.range_succ,
      List.insertionSort, List.orderedInsert, htake]
  have h1 : errSum [1, 0, 0] [2, 0, 0] = 1 := by
    simp only [errSum, List.zipWith]
    rw [show ((1 : ℤ) : ℚ) - 2 = -1 by norm_num, abs_neg, abs_one]
    norm_num
  have h2 : errSum [3, 1, 0] [2, 0, 0] = 2 := by
    simp only [errSum, List.zipWith]
    norm_num [abs_of_nonneg]
  refine ⟨hr, ⟨by decide, rfl, by decide⟩, ?_⟩
  rw [hr, h1, h2]
  norm_num
